import Mathlib

/-!
Verification development for the log-forwarding agent.

The repository ships two event-pipeline variants:
  * `log_forwarder.py` — timestamp-prefix line classifier, bounded outbound
    queue with drop-oldest eviction, sender thread with retry/backoff and a
    fixed retry deadline;
  * `forwarder.py` — indentation/stack-trace continuation classifier with a
    richer line parser (`parse_level_and_ts`) and byte-based event truncation.

This file shallowly embeds the pure data transformations of both variants:
strings are lists of Unicode scalars (Python `str` code points), machine
integers are `Nat`, wall-clock reads are explicit `now` parameters, the
`datetime.fromisoformat` library call is an explicit function parameter, and
the HTTP world of the sender is a trace of attempt outcomes.  `hashlib.sha1`
is embedded as a full SHA-1 implementation over UTF-8 byte lists.
-/


/-! ### Bytes and UTF-8 (Python `str.encode("utf-8")`) -/

/-- UTF-8 encoding of a single code point, as a list of byte values. -/
def utf8Char (c : Char) : List Nat :=
  let n := c.toNat
  if n < 128 then [n]
  else if n < 2048 then [192 + n / 64, 128 + n % 64]
  else if n < 65536 then [224 + n / 4096, 128 + (n / 64) % 64, 128 + n % 64]
  else [240 + n / 262144, 128 + (n / 4096) % 64, 128 + (n / 64) % 64, 128 + n % 64]

/-- UTF-8 encoding of a string given as a list of code points. -/
def utf8Bytes (l : List Char) : List Nat :=
  l.flatMap utf8Char

/-- Python `len(s.encode("utf-8"))`. -/
def utf8Len (l : List Char) : Nat :=
  (utf8Bytes l).length

/-! ### Decimal rendering of naturals (Python `f"{ts}"` for a non-negative int).
Fuel-based so that it reduces in the kernel. -/

def digitCh : Nat → Char
  | 0 => '0'
  | 1 => '1'
  | 2 => '2'
  | 3 => '3'
  | 4 => '4'
  | 5 => '5'
  | 6 => '6'
  | 7 => '7'
  | 8 => '8'
  | _ => '9'

def natStrF : Nat → Nat → List Char
  | 0, _ => []
  | f + 1, n => if n < 10 then [digitCh n] else natStrF f (n / 10) ++ [digitCh (n % 10)]

/-- Decimal representation of a natural number as characters. -/
def natStr (n : Nat) : List Char :=
  natStrF (n + 1) n

/-! ### SHA-1 (`hashlib.sha1(...).hexdigest()`), over byte lists. -/

/-- Truncate to a 32-bit word. -/
def w32 (n : Nat) : Nat :=
  n % 4294967296

/-- Left-rotate a 32-bit word by `k` bits. -/
def rotl (k x : Nat) : Nat :=
  w32 (x * 2 ^ k + x / 2 ^ (32 - k))

/-- SHA-1 round function. -/
def sha1F (i b c d : Nat) : Nat :=
  if i < 20 then (b &&& c) ||| ((4294967295 - b) &&& d)
  else if i < 40 then b ^^^ c ^^^ d
  else if i < 60 then (b &&& c) ||| (b &&& d) ||| (c &&& d)
  else b ^^^ c ^^^ d

/-- SHA-1 round constants. -/
def sha1K (i : Nat) : Nat :=
  if i < 20 then 1518500249
  else if i < 40 then 1859775393
  else if i < 60 then 2400959708
  else 3395469782

/-- Merkle–Damgård padding: append 0x80, zero bytes, and the 64-bit
big-endian bit length, reaching a multiple of 64 bytes. -/
def sha1Pad (msg : List Nat) : List Nat :=
  let L := msg.length
  let zeros := (64 - (L + 9) % 64) % 64
  let bl := 8 * L
  msg ++ 128 :: List.replicate zeros 0 ++
    [bl / 72057594037927936 % 256, bl / 281474976710656 % 256,
     bl / 1099511627776 % 256, bl / 4294967296 % 256,
     bl / 16777216 % 256, bl / 65536 % 256, bl / 256 % 256, bl % 256]

/-- Group bytes into big-endian 32-bit words (fuel-based). -/
def toWordsF : Nat → List Nat → List Nat
  | 0, _ => []
  | _ + 1, [] => []
  | f + 1, a :: b :: c :: d :: r =>
      (a * 16777216 + b * 65536 + c * 256 + d) :: toWordsF f r
  | _ + 1, _ => []

/-- Group a word list into 16-word blocks (fuel-based). -/
def chunks16 : Nat → List Nat → List (List Nat)
  | 0, _ => []
  | _ + 1, [] => []
  | f + 1, l => l.take 16 :: chunks16 f (l.drop 16)

/-- Message-schedule expansion: `acc` holds the words produced so far in
reverse order; each step prepends `rotl 1 (W[t-3] xor W[t-8] xor W[t-14] xor W[t-16])`. -/
def expandF : Nat → List Nat → List Nat
  | 0, acc => acc.reverse
  | f + 1, acc =>
      expandF f (rotl 1 ((acc.getD 2 0) ^^^ (acc.getD 7 0) ^^^ (acc.getD 13 0) ^^^ (acc.getD 15 0)) :: acc)

/-- Expand a 16-word block to the 80-word schedule. -/
def expandWords (ws : List Nat) : List Nat :=
  expandF 64 ws.reverse

/-- The 80 compression rounds, driven by the (round index, schedule word) list. -/
def sha1Rounds : List (Nat × Nat) → Nat × Nat × Nat × Nat × Nat → Nat × Nat × Nat × Nat × Nat
  | [], st => st
  | (i, w) :: rest, (a, b, c, d, e) =>
      sha1Rounds rest (w32 (rotl 5 a + sha1F i b c d + e + sha1K i + w), a, rotl 30 b, c, d)

/-- Process one 16-word block. -/
def sha1Block (st : Nat × Nat × Nat × Nat × Nat) (ws : List Nat) : Nat × Nat × Nat × Nat × Nat :=
  match st with
  | (h0, h1, h2, h3, h4) =>
    match sha1Rounds ((List.range 80).zip (expandWords ws)) st with
    | (a, b, c, d, e) => (w32 (h0 + a), w32 (h1 + b), w32 (h2 + c), w32 (h3 + d), w32 (h4 + e))

/-- SHA-1 digest of a byte list, as 20 bytes. -/
def sha1Bytes (msg : List Nat) : List Nat :=
  let padded := sha1Pad msg
  let blocks := chunks16 padded.length (toWordsF padded.length padded)
  match blocks.foldl sha1Block (1732584193, 4023233417, 2562383102, 271733878, 3285377520) with
  | (h0, h1, h2, h3, h4) =>
      [h0, h1, h2, h3, h4].flatMap fun h =>
        [h / 16777216 % 256, h / 65536 % 256, h / 256 % 256, h % 256]

/-- Lowercase hex digit. -/
def hexDigit (n : Nat) : Char :=
  if n < 10 then Char.ofNat (48 + n) else Char.ofNat (87 + n)

/-- Two hex digits of a byte. -/
def byteHex (b : Nat) : List Char :=
  [hexDigit (b / 16), hexDigit (b % 16)]

/-- `hashlib.sha1(bytes).hexdigest()`. -/
def sha1Hex (msg : List Nat) : String :=
  ⟨(sha1Bytes msg).flatMap byteHex⟩

/-! ### Event ids
`log_forwarder.py`:
    def make_event_id(server_name, ts, msg):
        head = msg[:512]
        base = f"{server_name}|{ts}|{head}"
        return hashlib.sha1(base.encode("utf-8")).hexdigest()
Note `msg[:512]` slices 512 code points (characters), not bytes. -/

/-- The hash pre-image string used by `make_event_id` (log_forwarder variant). -/
def eid_base (server : String) (ts : Nat) (msg : List Char) : List Char :=
  server.data ++ '|' :: (natStr ts ++ '|' :: msg.take 512)

/-- `make_event_id` of `log_forwarder.py`. -/
def make_event_id (server : String) (ts : Nat) (msg : String) : String :=
  sha1Hex (utf8Bytes (eid_base server ts msg.data))

/-- `make_event_id` of `forwarder.py`: same, but with a `requestId` component
(`rid or ''`) between the timestamp and the message head. -/
def fw_make_event_id (server : String) (ts : Nat) (msg : String) (rid : Option String) : String :=
  sha1Hex (utf8Bytes (server.data ++ '|' ::
    (natStr ts ++ '|' :: ((rid.getD "").data ++ '|' :: msg.data.take 512))))

/-- Two messages agreeing on their first 512 bytes (but not on their first 512
characters). -/
def cexMsgA : String := ⟨List.replicate 256 'é'⟩

def cexMsgB : String := ⟨List.replicate 256 'é' ++ ['b']⟩

/-! ### OutboundQueue (C2, C4)
`log_forwarder.py`:
    def enqueue_drop_oldest(batch):
        while True:
            try:
                send_q.put_nowait(batch); return True
            except queue.Full:
                try: send_q.get_nowait(); send_q.task_done()
                except queue.Empty: continue
The queue contents are modelled oldest-first; `queue.Queue(maxsize=cap)` is
full exactly when `0 < cap ∧ cap ≤ length` (a non-positive maxsize means
unbounded in Python). -/

def enqueue_drop_oldest (cap : Nat) : List α → α → List α
  | [], b => [b]
  | a :: t, b =>
      if 0 < cap ∧ cap ≤ (a :: t).length then enqueue_drop_oldest cap t b
      else a :: t ++ [b]

/-- Folding a sequence of pushes into an initially empty queue. -/
def pushAll (cap : Nat) (bs : List α) : List α :=
  bs.foldl (enqueue_drop_oldest cap) []

/-! ### Sender loop step (C3, C4)
`sender_loop` in `log_forwarder.py`: `send_with_retry` returns `True`
(delivered), `False` (retry deadline exhausted → re-enqueue the batch), or
`None` (permanent 4xx rejection → drop). -/

inductive SendResult
  | success
  | exhausted
  | rejected
deriving DecidableEq

/-- The effect of one `sender_loop` iteration on the queue, after popping
`batch` and obtaining `r` from `send_with_retry`. -/
def sender_step (cap : Nat) (q : List α) (r : SendResult) (batch : α) : List α :=
  match r with
  | .success => q
  | .exhausted => enqueue_drop_oldest cap q batch
  | .rejected => q

/-! ### `send_with_retry` (C3)
`log_forwarder.py` loops: read the clock; if past the deadline return `False`;
issue the HTTP post; on 2xx return `True`; on 4xx other than 429 return
`None`; otherwise (5xx/429/exception) check the clock again, return `False`
if past the deadline, else sleep with backoff+jitter and retry.  The HTTP
world is modelled as a trace of attempts, each carrying the clock value at
the top of the iteration, the outcome, and the clock value after the call;
the result also reports how many attempts were consumed.  Backoff and jitter
only determine sleep durations and do not affect the returned value. -/

inductive Outcome
  | status (code : Nat)
  | netError
deriving DecidableEq

inductive Classify
  | ok
  | reject
  | transient
deriving DecidableEq

/-- Outcome classification of one attempt, in source order: 2xx, then 4xx
other than 429, else retryable; exceptions are retryable. -/
def classifyOutcome : Outcome → Classify
  | .status c =>
      if 200 ≤ c ∧ c < 300 then .ok
      else if 400 ≤ c ∧ c < 500 ∧ c ≠ 429 then .reject
      else .transient
  | .netError => .transient

structure Attempt where
  now : Nat
  outcome : Outcome
  after : Nat
deriving DecidableEq

/-- `send_with_retry`, returning the Python result (`True`/`False`/`None` as
`success`/`exhausted`/`rejected`) and the number of HTTP attempts made;
`none` if the trace is too short to determine the result. -/
def send_with_retry (deadline : Nat) : List Attempt → Option (SendResult × Nat)
  | [] => none
  | a :: rest =>
    if deadline ≤ a.now then some (.exhausted, 0)
    else
      match classifyOutcome a.outcome with
      | .ok => some (.success, 1)
      | .reject => some (.rejected, 1)
      | .transient =>
        if deadline ≤ a.after then some (.exhausted, 1)
        else (send_with_retry deadline rest).map fun p => (p.1, p.2 + 1)

/-! ### Line classifier and metadata extraction (`log_forwarder.py`) -/

/-- Python regex `\s` restricted to ASCII (the inputs in scope are ASCII
whitespace). -/
def isSpaceCh (c : Char) : Bool :=
  c = ' ' || c = '\t' || c = '\n' || c = '\x0b' || c = '\x0c' || c = '\r'

/-- Python regex `\w` restricted to ASCII. -/
def isWordCh (c : Char) : Bool :=
  c.isAlpha || c.isDigit || c = '_'

/-- `LOG_START_RE = ^\d{4}-\d{2}-\d{2}T\d{2}:\d{2}:\d{2}` as a prefix test. -/
def logStartMatch : List Char → Bool
  | d1 :: d2 :: d3 :: d4 :: '-' :: d5 :: d6 :: '-' :: d7 :: d8 :: 'T' ::
    d9 :: d10 :: ':' :: d11 :: d12 :: ':' :: d13 :: d14 :: _ =>
      d1.isDigit && d2.isDigit && d3.isDigit && d4.isDigit && d5.isDigit && d6.isDigit &&
      d7.isDigit && d8.isDigit && d9.isDigit && d10.isDigit && d11.isDigit && d12.isDigit &&
      d13.isDigit && d14.isDigit
  | _ => false

/-- Consume an exact (case-sensitive) literal. -/
def dropLit : List Char → List Char → Option (List Char)
  | [], s => some s
  | _ :: _, [] => none
  | p :: ps, c :: cs => if c = p then dropLit ps cs else none

def levelNames : List (List Char) :=
  ["TRACE".data, "DEBUG".data, "INFO".data, "WARN".data, "ERROR".data]

/-- Try the level alternation (in source order) at a position, requiring a
whitespace right after the level (the trailing `\s+` of `LEVEL_RE`). -/
def tryLevels : List (List Char) → List Char → Option (List Char)
  | [], _ => none
  | L :: Ls, s =>
      match dropLit L s with
      | some rest =>
          match rest with
          | c :: _ => if isSpaceCh c then some L else tryLevels Ls s
          | [] => tryLevels Ls s
      | none => tryLevels Ls s

/-- `LEVEL_RE.search`: `\s+(TRACE|DEBUG|INFO|WARN|ERROR)\s+`, leftmost match.
The greedy `\s+` is equivalent to dropping the whole whitespace run, as level
names do not start with whitespace. -/
def levelSearch : List Char → Option (List Char)
  | [] => none
  | c :: cs =>
      if isSpaceCh c then
        match tryLevels levelNames ((c :: cs).dropWhile isSpaceCh) with
        | some L => some L
        | none => levelSearch cs
      else levelSearch cs

/-- `parse_iso_to_epoch_ms`: `datetime.fromisoformat` (a stdlib collaborator)
is modelled as the function parameter `parseIso`; on parse failure the
`except` branch returns the current wall clock. -/
def parseIsoToEpochMs (now : Nat) (parseIso : String → Option Nat) (s : String) : Nat :=
  (parseIso s).getD now

/-- `extract_metadata` of `log_forwarder.py`: timestamp from the first
space-separated token when it matches the line-start regex (else wall clock),
level from `LEVEL_RE.search` (else INFO). -/
def lf_extract (now : Nat) (parseIso : String → Option Nat) (line : String) : Nat × String :=
  let tok := line.data.takeWhile (fun c => c ≠ ' ')
  let ts := if logStartMatch tok then parseIsoToEpochMs now parseIso (String.mk tok) else now
  let lvl :=
    match levelSearch line.data with
    | some L => String.mk L
    | none => "INFO"
  (ts, lvl)

/-! ### EventAssembler (`log_forwarder.py` main loop) -/

structure LfPending where
  ts : Nat
  level : String
  message : String
deriving DecidableEq

structure LfEvent where
  serverName : String
  ts : Nat
  level : String
  message : String
  eventId : String
deriving DecidableEq

/-- The truncation applied by `finalize_pending`: the byte length is checked,
but the slice `msg[:MAX_EVENT_BYTES]` is in characters. -/
def lf_truncate (maxB : Nat) (msg : String) : String :=
  if utf8Len msg.data > maxB then String.mk (msg.data.take maxB) ++ "\n...(truncated)"
  else msg

/-- `finalize_pending` of `log_forwarder.py`. -/
def lf_finalize (maxB : Nat) (server : String) : Option LfPending → Option LfEvent
  | none => none
  | some p =>
      let msg := lf_truncate maxB p.message
      some ⟨server, p.ts, p.level, msg, make_event_id server p.ts msg⟩

/-- One line through the `log_forwarder.py` assembler: a line matching the
line-start regex finalizes any pending event and opens a new one; any other
line is appended to the pending message (or opens a synthetic INFO pending). -/
def lf_step (now : Nat) (parseIso : String → Option Nat) (server : String) (maxB : Nat)
    (pending : Option LfPending) (line : String) : Option LfPending × List LfEvent :=
  if logStartMatch line.data then
    let emitted := (lf_finalize maxB server pending).toList
    let m := lf_extract now parseIso line
    (some ⟨m.1, m.2, line⟩, emitted)
  else
    match pending with
    | some p => (some ⟨p.ts, p.level, p.message ++ "\n" ++ line⟩, [])
    | none => (some ⟨now, "INFO", line⟩, [])

/-- Fold `lf_step` over a line sequence, accumulating emitted events. -/
def lf_run (now : Nat) (parseIso : String → Option Nat) (server : String) (maxB : Nat) :
    Option LfPending × List LfEvent → List String → Option LfPending × List LfEvent
  | st, [] => st
  | (pending, out), line :: rest =>
      let s := lf_step now parseIso server maxB pending line
      lf_run now parseIso server maxB (s.1, out ++ s.2) rest

/-- Newline-join of the tail lines, each preceded by a newline. -/
def prejoinNL : List String → String
  | [] => ""
  | l :: ls => "\n" ++ l ++ prejoinNL ls

/-- Newline-join of a line list (Python `"\n".join(lines)`). -/
def joinNL : List String → String
  | [] => ""
  | l :: ls => l ++ prejoinNL ls

/-! ### `forwarder.py` variant: continuation classifier and line parser -/

def startsWithL : List Char → List Char → Bool
  | [], _ => true
  | _ :: _, [] => false
  | p :: ps, c :: cs => c = p && startsWithL ps cs

/-- Substring test (`pat in s` for Python strings). -/
def containsSub (pat : List Char) : List Char → Bool
  | [] => startsWithL pat []
  | c :: cs => startsWithL pat (c :: cs) || containsSub pat cs

/-- `is_continuation` of `forwarder.py`: the empty line is never a
continuation; `at `/tab-`at `/`Caused by:` openings and leading blanks are. -/
def is_continuation (line : String) : Bool :=
  match line.data with
  | [] => false
  | c :: cs =>
      if startsWithL "at ".data (c :: cs) || startsWithL "\tat ".data (c :: cs) then true
      else if startsWithL "Caused by:".data (c :: cs) then true
      else if c = ' ' || c = '\t' then true
      else false

/-- Timezone part of the ISO regex: `Z|[+\-]\d{2}:\d{2}`. -/
def isoTz : List Char → Option (List Char × List Char)
  | 'Z' :: r => some (['Z'], r)
  | c :: h1 :: h2 :: ':' :: m1 :: m2 :: r =>
      if (c = '+' || c = '-') && h1.isDigit && h2.isDigit && m1.isDigit && m2.isDigit then
        some ([c, h1, h2, ':', m1, m2], r)
      else none
  | _ => none

/-- The ISO timestamp group of `SPRING_PREFIX_RE`/`DOUBLE_PREFIX_RE`:
`\d{4}-\d{2}-\d{2}T\d{2}:\d{2}:\d{2}(?:\.\d+)?(?:Z|[+\-]\d{2}:\d{2})`. -/
def isoMatch : List Char → Option (List Char × List Char)
  | d1 :: d2 :: d3 :: d4 :: '-' :: d5 :: d6 :: '-' :: d7 :: d8 :: 'T' ::
    d9 :: d10 :: ':' :: d11 :: d12 :: ':' :: d13 :: d14 :: rest =>
      if d1.isDigit && d2.isDigit && d3.isDigit && d4.isDigit && d5.isDigit && d6.isDigit &&
         d7.isDigit && d8.isDigit && d9.isDigit && d10.isDigit && d11.isDigit && d12.isDigit &&
         d13.isDigit && d14.isDigit then
        let pre := [d1, d2, d3, d4, '-', d5, d6, '-', d7, d8, 'T', d9, d10, ':', d11, d12, ':', d13, d14]
        match rest with
        | '.' :: r2 =>
            let frac := r2.takeWhile Char.isDigit
            if frac.isEmpty then none
            else
              match isoTz (r2.dropWhile Char.isDigit) with
              | some (tz, r3) => some (pre ++ '.' :: frac ++ tz, r3)
              | none => none
        | _ =>
            match isoTz rest with
            | some (tz, r3) => some (pre ++ tz, r3)
            | none => none
      else none
  | _ => none

/-- Level alternation followed by a word boundary `\b`. -/
def tryLevelsB : List (List Char) → List Char → Option (List Char × List Char)
  | [], _ => none
  | L :: Ls, s =>
      match dropLit L s with
      | some rest =>
          if (match rest with | [] => true | c :: _ => !isWordCh c) then some (L, rest)
          else tryLevelsB Ls s
      | none => tryLevelsB Ls s

/-- Level alternation with no boundary requirement (the following `\s+` is
checked by the caller). -/
def tryLevelsPlain : List (List Char) → List Char → Option (List Char × List Char)
  | [], _ => none
  | L :: Ls, s =>
      match dropLit L s with
      | some rest => some (L, rest)
      | none => tryLevelsPlain Ls s

/-- `SPRING_PREFIX_RE.match`: ISO timestamp, `\s+`, level, `\b`; returns the
(iso, lvl) groups. -/
def springMatch (line : List Char) : Option (List Char × List Char) :=
  match isoMatch line with
  | some (iso, rest) =>
      if (rest.takeWhile isSpaceCh).isEmpty then none
      else
        match tryLevelsB levelNames (rest.dropWhile isSpaceCh) with
        | some (lvl, _) => some (iso, lvl)
        | none => none
  | none => none

/-- `DOUBLE_PREFIX_RE.match`: request id digits, `\s+`, prefix level, `\s+`,
ISO timestamp, `\s+`, level, `\b`; returns the (rid, iso, lvl) groups. -/
def doubleMatch (line : List Char) : Option (List Char × List Char × List Char) :=
  let rid := line.takeWhile Char.isDigit
  let r1 := line.dropWhile Char.isDigit
  if rid.isEmpty then none
  else if (r1.takeWhile isSpaceCh).isEmpty then none
  else
    match tryLevelsPlain levelNames (r1.dropWhile isSpaceCh) with
    | none => none
    | some (_, r3) =>
        if (r3.takeWhile isSpaceCh).isEmpty then none
        else
          match isoMatch (r3.dropWhile isSpaceCh) with
          | none => none
          | some (iso, r5) =>
              if (r5.takeWhile isSpaceCh).isEmpty then none
              else
                match tryLevelsB levelNames (r5.dropWhile isSpaceCh) with
                | none => none
                | some (lvl, _) => some (rid, iso, lvl)

/-- `parse_level_and_ts` of `forwarder.py`: double prefix, then Spring
prefix, then the upper-cased substring fallbacks, defaulting to INFO.
Python `str.upper` is modelled for ASCII. -/
def parse_level_and_ts (now : Nat) (parseIso : String → Option Nat) (line : String) :
    Nat × String × Option String :=
  match doubleMatch line.data with
  | some (rid, iso, lvl) =>
      (parseIsoToEpochMs now parseIso (String.mk iso), String.mk lvl, some (String.mk rid))
  | none =>
    match springMatch line.data with
    | some (iso, lvl) => (parseIsoToEpochMs now parseIso (String.mk iso), String.mk lvl, none)
    | none =>
        let u := line.data.map Char.toUpper
        if containsSub " ERROR ".data (' ' :: u ++ [' ']) || startsWithL "ERROR".data u ||
           containsSub "EXCEPTION".data u then (now, "ERROR", none)
        else if containsSub " WARN ".data (' ' :: u ++ [' ']) || startsWithL "WARN".data u ||
           containsSub "WARNING".data u then (now, "WARN", none)
        else if containsSub " INFO ".data (' ' :: u ++ [' ']) || startsWithL "INFO".data u then
          (now, "INFO", none)
        else (now, "INFO", none)

/-! ### UTF-8 decoding with Python `errors="replace"` (maximal subparts) -/

def contB (b : Nat) : Bool :=
  128 ≤ b && b ≤ 191

def cont2ok (b0 b1 : Nat) : Bool :=
  if b0 = 224 then 160 ≤ b1 && b1 ≤ 191
  else if b0 = 237 then 128 ≤ b1 && b1 ≤ 159
  else contB b1

def cont4ok (b0 b1 : Nat) : Bool :=
  if b0 = 240 then 144 ≤ b1 && b1 ≤ 191
  else if b0 = 244 then 128 ≤ b1 && b1 ≤ 143
  else contB b1

/-- Strict UTF-8 decoding where each maximal invalid subpart becomes one
U+FFFD replacement character (CPython `errors="replace"`); fuel-based, each
step consumes at least one byte. -/
def decodeReplaceF : Nat → List Nat → List Char
  | 0, _ => []
  | _ + 1, [] => []
  | f + 1, b :: rest =>
    if b < 128 then Char.ofNat b :: decodeReplaceF f rest
    else if 194 ≤ b && b ≤ 223 then
      match rest with
      | b1 :: r2 =>
          if contB b1 then Char.ofNat ((b - 192) * 64 + (b1 - 128)) :: decodeReplaceF f r2
          else '�' :: decodeReplaceF f rest
      | [] => ['�']
    else if 224 ≤ b && b ≤ 239 then
      match rest with
      | b1 :: r2 =>
          if cont2ok b b1 then
            match r2 with
            | b2 :: r3 =>
                if contB b2 then
                  Char.ofNat ((b - 224) * 4096 + (b1 - 128) * 64 + (b2 - 128)) :: decodeReplaceF f r3
                else '�' :: decodeReplaceF f r2
            | [] => ['�']
          else '�' :: decodeReplaceF f rest
      | [] => ['�']
    else if 240 ≤ b && b ≤ 244 then
      match rest with
      | b1 :: r2 =>
          if cont4ok b b1 then
            match r2 with
            | b2 :: r3 =>
                if contB b2 then
                  match r3 with
                  | b3 :: r4 =>
                      if contB b3 then
                        Char.ofNat ((b - 240) * 262144 + (b1 - 128) * 4096 +
                          (b2 - 128) * 64 + (b3 - 128)) :: decodeReplaceF f r4
                      else '�' :: decodeReplaceF f r3
                  | [] => ['�']
                else '�' :: decodeReplaceF f r2
            | [] => ['�']
          else '�' :: decodeReplaceF f rest
      | [] => ['�']
    else '�' :: decodeReplaceF f rest

/-- Strict UTF-8 decoding with replacement, with enough fuel for the input. -/
def decodeReplace (bs : List Nat) : List Char :=
  decodeReplaceF bs.length bs

/-! ### EventAssembler (`forwarder.py` main loop) -/

structure FwPending where
  serverName : String
  ts : Nat
  level : String
  requestId : Option String
  message : String
deriving DecidableEq

structure FwEvent where
  serverName : String
  ts : Nat
  level : String
  requestId : Option String
  message : String
  eventId : String
deriving DecidableEq

/-- `forwarder.py` event truncation: byte-slice the UTF-8 encoding at the
budget, decode with replacement, append the marker. -/
def fw_truncate (maxB : Nat) (msg : String) : String :=
  if utf8Len msg.data > maxB then
    String.mk (decodeReplace ((utf8Bytes msg.data).take maxB)) ++ "\n...(event truncated)"
  else msg

/-- `finalize_pending` of `forwarder.py` on a live pending event. -/
def fw_finalize (maxB : Nat) (p : FwPending) : FwEvent :=
  let msg := fw_truncate maxB p.message
  ⟨p.serverName, p.ts, p.level, p.requestId, msg,
    fw_make_event_id p.serverName p.ts msg p.requestId⟩

/-- Finalize any pending event and open a new one from `line` (the else
branch of the `forwarder.py` per-line dispatch). -/
def fw_open (now : Nat) (parseIso : String → Option Nat) (maxB : Nat) (server : String)
    (pending : Option FwPending) (line : String) : Option FwPending × List FwEvent :=
  let out := (pending.map (fw_finalize maxB)).toList
  let m := parse_level_and_ts now parseIso line
  (some ⟨server, m.1, m.2.1, m.2.2, line⟩, out)

/-- One line through the `forwarder.py` assembler. -/
def fw_step (now : Nat) (parseIso : String → Option Nat) (maxB : Nat) (server : String)
    (pending : Option FwPending) (line : String) : Option FwPending × List FwEvent :=
  match pending with
  | some p =>
      if is_continuation line then
        (some ⟨p.serverName, p.ts, p.level, p.requestId, p.message ++ "\n" ++ line⟩, [])
      else fw_open now parseIso maxB server (some p) line
  | none => fw_open now parseIso maxB server none line

/-- Fold `fw_step` over a line sequence, accumulating emitted events. -/
def fw_run (now : Nat) (parseIso : String → Option Nat) (maxB : Nat) (server : String) :
    Option FwPending × List FwEvent → List String → Option FwPending × List FwEvent
  | st, [] => st
  | (pending, out), line :: rest =>
      let s := fw_step now parseIso maxB server pending line
      fw_run now parseIso maxB server (s.1, out ++ s.2) rest

/-! ### Tailer offset bookkeeping and reopen-on-truncation (`log_forwarder.py`) -/

/-- `current_offset += len(line)`: Python `len` on a decoded line counts code
points, not bytes. -/
def tailer_advance (offset : Nat) (line : String) : Nat :=
  offset + line.data.length

/-- The read position produced by `open_file_wait`: it seeks to end-of-file
whenever START_AT_END is set, also on reopen after truncation/rotation. -/
def open_offset (startAtEnd : Bool) (size : Nat) : Nat :=
  if startAtEnd then size else 0

structure TailState where
  offset : Nat
  pending : Option LfPending
  batch : List LfEvent
deriving DecidableEq

/-- The no-data tick of `log_forwarder.py`'s main loop: when the observed
size is below the tracked offset (truncation) or the identity changed
(rotation), close and reopen via `open_file_wait` (which honours
START_AT_END), reset the offset to the reopened handle's position, and
force-finalize any pending event into the batch.  `newSize` is used both as
the observed size and as the file size at reopen time. -/
def lf_no_data_tick (startAtEnd : Bool) (server : String) (maxB : Nat)
    (st : TailState) (newSize : Option Nat) (inodeChanged : Bool) : TailState :=
  if (match newSize with | some n => decide (n < st.offset) | none => false) || inodeChanged then
    { offset := open_offset startAtEnd (newSize.getD 0),
      pending := none,
      batch := st.batch ++ (lf_finalize maxB server st.pending).toList }
  else st

/-- The reopened tail state after a truncation tick under default
configuration (START_AT_END true): old offset 100, new file size 5, a live
pending event. -/
def c5tick : TailState :=
  lf_no_data_tick true "srv" 32768 ⟨100, some ⟨5, "INFO", "m"⟩, []⟩ (some 5) false

/-! ### Redactor (`REDACT_PATTERNS` + `redact`, C8)
The four substitution rules are compiled by hand into deterministic matchers
(the character classes involved are disjoint from the separators, so the
greedy matches never need backtracking, and the five key names have distinct
first letters, so at most one alternative consumes).  `re.sub` semantics:
scan left to right, replace each leftmost non-overlapping match, resume after
the matched text of the original string. -/

/-- `[A-Za-z0-9\-\._~\+\/]` (the bearer-token character class). -/
def isTokenCh (c : Char) : Bool :=
  c.isAlpha || c.isDigit || c = '-' || c = '.' || c = '_' || c = '~' || c = '+' || c = '/'

/-- `[^\s&]` (rule-3 value class). -/
def isVal3Ch (c : Char) : Bool :=
  !isSpaceCh c && c != '&'

/-- Rule-4 value class: not a quote, whitespace, comma or closing brace. -/
def isVal4Ch (c : Char) : Bool :=
  !(c == '"' || isSpaceCh c || c == ',' || c == '\x7d')

/-- Case-insensitive literal match (`re.IGNORECASE` over an ASCII literal
given in lowercase); returns the consumed original characters and the rest. -/
def matchCI : List Char → List Char → Option (List Char × List Char)
  | [], s => some ([], s)
  | _ :: _, [] => none
  | p :: ps, c :: cs =>
      if c.toLower = p then
        match matchCI ps cs with
        | some (pre, r) => some (c :: pre, r)
        | none => none
      else none

def redactedTag : List Char :=
  "[REDACTED]".data

/-- `(Authorization:\s*Bearer\s+)[A-Za-z0-9\-\._~\+\/]+=*` replaced by
`\1[REDACTED]`; returns (replacement, last matched char, rest). -/
def rule1Try (_pw : Bool) (s : List Char) : Option (List Char × Char × List Char) :=
  match matchCI "authorization:".data s with
  | none => none
  | some (auth, r1) =>
      let ws0 := r1.takeWhile isSpaceCh
      match matchCI "bearer".data (r1.dropWhile isSpaceCh) with
      | none => none
      | some (bear, r2) =>
          let ws1 := r2.takeWhile isSpaceCh
          let r2b := r2.dropWhile isSpaceCh
          if ws1.isEmpty then none
          else
            let tok := r2b.takeWhile isTokenCh
            let r3 := r2b.dropWhile isTokenCh
            if tok.isEmpty then none
            else
              let eqs := r3.takeWhile (fun c => c = '=')
              some (auth ++ ws0 ++ bear ++ ws1 ++ redactedTag,
                eqs.getLastD (tok.getLastD 'x'),
                r3.dropWhile (fun c => c = '='))

/-- `(Bearer\s+)[A-Za-z0-9\-\._~\+\/]+=*` replaced by `\1[REDACTED]`. -/
def rule2Try (_pw : Bool) (s : List Char) : Option (List Char × Char × List Char) :=
  match matchCI "bearer".data s with
  | none => none
  | some (bear, r2) =>
      let ws1 := r2.takeWhile isSpaceCh
      let r2b := r2.dropWhile isSpaceCh
      if ws1.isEmpty then none
      else
        let tok := r2b.takeWhile isTokenCh
        let r3 := r2b.dropWhile isTokenCh
        if tok.isEmpty then none
        else
          let eqs := r3.takeWhile (fun c => c = '=')
          some (bear ++ ws1 ++ redactedTag,
            eqs.getLastD (tok.getLastD 'x'),
            r3.dropWhile (fun c => c = '='))

def keyNames : List (List Char) :=
  ["token".data, "access_token".data, "refresh_token".data, "secret".data, "password".data]

/-- After a rule-3 key: `\s*=\s*` then `[^\s&]+`. -/
def rule3Val (ck : List Char) (r : List Char) : Option (List Char × Char × List Char) :=
  let ws0 := r.takeWhile isSpaceCh
  match r.dropWhile isSpaceCh with
  | '=' :: r2 =>
      let ws1 := r2.takeWhile isSpaceCh
      let r2b := r2.dropWhile isSpaceCh
      let v := r2b.takeWhile isVal3Ch
      if v.isEmpty then none
      else some (ck ++ ws0 ++ '=' :: ws1 ++ redactedTag, v.getLastD 'x', r2b.dropWhile isVal3Ch)
  | _ => none

/-- The rule-3 key alternation in source order (backtracks to the next key
when the remainder fails). -/
def rule3Keys : List (List Char) → List Char → Option (List Char × Char × List Char)
  | [], _ => none
  | k :: ks, s =>
      match matchCI k s with
      | some (ck, r) =>
          match rule3Val ck r with
          | some res => some res
          | none => rule3Keys ks s
      | none => rule3Keys ks s

/-- `(\b(token|access_token|refresh_token|secret|password)\s*=\s*)[^\s&]+`
replaced by `\1[REDACTED]`; the word boundary requires the previous character
not to be a word character. -/
def rule3Try (pw : Bool) (s : List Char) : Option (List Char × Char × List Char) :=
  if pw then none else rule3Keys keyNames s

/-- The rule-4 value: optional opening quote then `[^"\s,}]+` (the quote is
consumed but not kept in group 1; it cannot help to backtrack it as a quote
is not a value character). -/
def rule4Val (g1 : List Char) (r : List Char) : Option (List Char × Char × List Char) :=
  match r with
  | '"' :: c :: r2 =>
      if isVal4Ch c then
        some (g1 ++ '"' :: redactedTag ++ ['"'],
          ((c :: r2).takeWhile isVal4Ch).getLastD 'x',
          (c :: r2).dropWhile isVal4Ch)
      else none
  | c :: r2 =>
      if isVal4Ch c then
        some (g1 ++ '"' :: redactedTag ++ ['"'],
          ((c :: r2).takeWhile isVal4Ch).getLastD 'x',
          (c :: r2).dropWhile isVal4Ch)
      else none
  | [] => none

/-- After a rule-4 key: optional closing quote, `\s*:\s*`, then the value. -/
def rule4After (q1 ck : List Char) (r : List Char) : Option (List Char × Char × List Char) :=
  let q2 := (match r with | '"' :: r2 => ((['"'] : List Char), r2) | _ => ([], r))
  let ws0 := q2.2.takeWhile isSpaceCh
  match q2.2.dropWhile isSpaceCh with
  | ':' :: r2 =>
      let ws1 := r2.takeWhile isSpaceCh
      rule4Val (q1 ++ ck ++ q2.1 ++ ws0 ++ ':' :: ws1) (r2.dropWhile isSpaceCh)
  | _ => none

def rule4Keys (q1 : List Char) : List (List Char) → List Char → Option (List Char × Char × List Char)
  | [], _ => none
  | k :: ks, s =>
      match matchCI k s with
      | some (ck, r) =>
          match rule4After q1 ck r with
          | some res => some res
          | none => rule4Keys q1 ks s
      | none => rule4Keys q1 ks s

/-- `("?(token|access_token|refresh_token|secret|password)"?\s*:\s*)"?[^"\s,}]+`
replaced by `\1"[REDACTED]"`. -/
def rule4Try (_pw : Bool) (s : List Char) : Option (List Char × Char × List Char) :=
  match s with
  | '"' :: r => rule4Keys ['"'] keyNames r
  | _ => rule4Keys [] keyNames s

/-- The `re.sub` scan: at each position try the matcher (passing whether the
previous character of the original string is a word character, for `\b`); on
a match emit the replacement and resume after the matched text.  Fuel-based:
every step consumes at least one character. -/
def subScanF (f : Bool → List Char → Option (List Char × Char × List Char)) :
    Nat → Bool → List Char → List Char
  | 0, _, s => s
  | _ + 1, _, [] => []
  | fuel + 1, pw, c :: cs =>
      match f pw (c :: cs) with
      | some (rep, lastc, rest) => rep ++ subScanF f fuel (isWordCh lastc) rest
      | none => c :: subScanF f fuel (isWordCh c) cs

/-- Run one substitution rule over a whole string (start of string is a
non-word position). -/
def runSub (f : Bool → List Char → Option (List Char × Char × List Char)) (s : List Char) :
    List Char :=
  subScanF f (s.length + 1) false s

/-- `redact` of `log_forwarder.py`/`forwarder.py`: the four rules applied in
sequence to the same string. -/
def redact (s : String) : String :=
  String.mk (runSub rule4Try (runSub rule3Try (runSub rule2Try (runSub rule1Try s.data))))

/-! ### Theorems -/

/-! ### Lemmas about decimal rendering -/

theorem natStrF_congr : ∀ f g n : Nat, n < f → n < g → natStrF f n = natStrF g n := by
  intro f
  induction f with
  | zero => intro g n h; omega
  | succ f ih =>
    intro g n hf hg
    cases g with
    | zero => omega
    | succ g =>
      simp only [natStrF]
      by_cases h10 : n < 10
      · simp [h10]
      · simp only [if_neg h10]
        have hlt : n / 10 < n := Nat.div_lt_self (by omega) (by omega)
        rw [ih g (n / 10) (by omega) (by omega)]

theorem natStr_eq (n : Nat) :
    natStr n = if n < 10 then [digitCh n] else natStr (n / 10) ++ [digitCh (n % 10)] := by
  have h : natStr n = if n < 10 then [digitCh n] else natStrF n (n / 10) ++ [digitCh (n % 10)] :=
    rfl
  rw [h]
  by_cases h10 : n < 10
  · simp [h10]
  · have hlt : n / 10 < n := Nat.div_lt_self (by omega) (by omega)
    rw [if_neg h10, if_neg h10,
      natStrF_congr n (n / 10 + 1) (n / 10) (by omega) (by omega)]
    rfl

theorem natStr_ne_nil (n : Nat) : natStr n ≠ [] := by
  rw [natStr_eq]
  by_cases h10 : n < 10 <;> simp [h10]

theorem digitCh_inj : ∀ a < 10, ∀ b < 10, digitCh a = digitCh b → a = b := by
  decide

theorem natStr_inj : ∀ m n : Nat, natStr m = natStr n → m = n := by
  intro m
  induction m using Nat.strong_induction_on with
  | _ m ih =>
    intro n h
    by_cases hm : m < 10 <;> by_cases hn : n < 10
    · rw [natStr_eq m, natStr_eq n, if_pos hm, if_pos hn] at h
      exact digitCh_inj m hm n hn (by simpa using h)
    · exfalso
      rw [natStr_eq m, natStr_eq n, if_pos hm, if_neg hn] at h
      have hlen := congrArg List.length h
      simp [List.length_append] at hlen
      exact natStr_ne_nil (n / 10) hlen
    · exfalso
      rw [natStr_eq m, natStr_eq n, if_neg hm, if_pos hn] at h
      have hlen := congrArg List.length h
      simp [List.length_append] at hlen
      exact natStr_ne_nil (m / 10) hlen
    · rw [natStr_eq m, natStr_eq n, if_neg hm, if_neg hn] at h
      have hparts := List.append_inj' h (by simp)
      have hdiv : m / 10 = n / 10 :=
        ih (m / 10) (Nat.div_lt_self (by omega) (by omega)) (n / 10) hparts.1
      have hd : m % 10 = n % 10 := by
        have h2 := hparts.2
        simp only [List.cons.injEq, and_true] at h2
        exact digitCh_inj _ (Nat.mod_lt _ (by omega)) _ (Nat.mod_lt _ (by omega)) h2
      omega

/-! ### C7 theorems: event-id determinism and pre-image sensitivity -/

/-- C7 amended: the event id is a pure function of `(serverName, ts, first 512
characters of message)` — the code slices 512 characters, not bytes — and
changing any single one of those three inputs changes the hash pre-image
string (hence the hash, barring SHA-1 collisions). -/
theorem make_event_id_deterministic_and_sensitive (s : String) (t : Nat) (m : String) :
    make_event_id s t m = make_event_id s t ⟨m.data.take 512⟩
    ∧ (∀ s₂ : String, s ≠ s₂ → eid_base s t m.data ≠ eid_base s₂ t m.data)
    ∧ (∀ t₂ : Nat, t ≠ t₂ → eid_base s t m.data ≠ eid_base s t₂ m.data)
    ∧ (∀ m₂ : String, m.data.take 512 ≠ m₂.data.take 512 →
        eid_base s t m.data ≠ eid_base s t m₂.data) := by
  refine ⟨?_, ?_, ?_, ?_⟩
  · unfold make_event_id eid_base
    simp [List.take_take]
  · intro s₂ hne h
    unfold eid_base at h
    have h2 := List.append_cancel_right h
    apply hne
    cases s with
    | mk d =>
      cases s₂ with
      | mk d₂ => exact congrArg String.mk h2
  · intro t₂ hne h
    unfold eid_base at h
    have h2 := List.append_cancel_left h
    simp only [List.cons.injEq, true_and] at h2
    have h3 := List.append_cancel_right h2
    exact hne (natStr_inj _ _ h3)
  · intro m₂ hne h
    unfold eid_base at h
    have h2 := List.append_cancel_left h
    simp only [List.cons.injEq, true_and] at h2
    have h3 := List.append_cancel_left h2
    simp only [List.cons.injEq, true_and] at h3
    exact hne h3

/-- Witness for the C7 amended theorem at concrete inputs. -/
theorem make_event_id_deterministic_and_sensitive_witness :
    (("srv" : String) ≠ "srv2" ∧ (3 : Nat) ≠ 4 ∧ ("a" : String).data.take 512 ≠ ("b" : String).data.take 512)
    ∧ (make_event_id "srv" 3 "a" = make_event_id "srv" 3 ⟨("a" : String).data.take 512⟩
       ∧ eid_base "srv" 3 ("a" : String).data ≠ eid_base "srv2" 3 ("a" : String).data
       ∧ eid_base "srv" 3 ("a" : String).data ≠ eid_base "srv" 4 ("a" : String).data
       ∧ eid_base "srv" 3 ("a" : String).data ≠ eid_base "srv" 3 ("b" : String).data) := by
  have h := make_event_id_deterministic_and_sensitive "srv" 3 "a"
  exact ⟨by decide, h.1, h.2.1 "srv2" (by decide), h.2.2.1 4 (by decide),
    h.2.2.2 "b" (by decide)⟩

set_option maxRecDepth 100000 in
/-- C7 counterexample: the claim says the id is a hash of the first 512 BYTES
of the message; these two messages agree on their first 512 bytes (é is two
bytes, so 256 é's are exactly 512 bytes) yet their event ids differ, because
the code slices `msg[:512]` in characters. -/
theorem make_event_id_not_a_function_of_first_512_bytes :
    (utf8Bytes cexMsgA.data).take 512 = (utf8Bytes cexMsgB.data).take 512
    ∧ make_event_id "srv" 0 cexMsgA ≠ make_event_id "srv" 0 cexMsgB := by
  constructor
  · decide
  · decide

theorem enqueue_drop_oldest_spec (cap : Nat) (q : List α) (b : α)
    (hcap : 0 < cap) (hle : q.length ≤ cap) :
    enqueue_drop_oldest cap q b = if q.length < cap then q ++ [b] else q.drop 1 ++ [b] := by
  cases q with
  | nil => simp [enqueue_drop_oldest, hcap]
  | cons a t =>
    rw [show enqueue_drop_oldest cap (a :: t) b =
        if 0 < cap ∧ cap ≤ (a :: t).length then enqueue_drop_oldest cap t b
        else a :: t ++ [b] from rfl]
    by_cases hfull : cap ≤ (a :: t).length
    · rw [if_pos ⟨hcap, hfull⟩, if_neg (show ¬(a :: t).length < cap by omega)]
      have hdrop : (a :: t).drop 1 = t := rfl
      rw [hdrop]
      cases t with
      | nil => rfl
      | cons c r =>
        rw [show enqueue_drop_oldest cap (c :: r) b =
            if 0 < cap ∧ cap ≤ (c :: r).length then enqueue_drop_oldest cap r b
            else c :: r ++ [b] from rfl]
        rw [if_neg]
        simp only [List.length_cons] at hle ⊢
        omega
    · rw [if_neg (fun hc => hfull hc.2), if_pos (show (a :: t).length < cap by omega)]

theorem pushAll_eq (cap : Nat) (hcap : 0 < cap) :
    ∀ bs : List α, pushAll cap bs = bs.drop (bs.length - cap) := by
  intro bs
  induction bs using List.reverseRecOn with
  | nil => simp [pushAll]
  | append_singleton xs x ih =>
    have hstep : pushAll cap (xs ++ [x]) = enqueue_drop_oldest cap (pushAll cap xs) x := by
      simp [pushAll, List.foldl_append]
    rw [hstep, ih]
    have hdlen : (xs.drop (xs.length - cap)).length = xs.length - (xs.length - cap) := by
      simp [List.length_drop]
    by_cases hlt : xs.length < cap
    · rw [enqueue_drop_oldest_spec cap _ x hcap (by omega)]
      have h0 : xs.length - cap = 0 := by omega
      rw [h0] at hdlen ⊢
      rw [if_pos (by simpa using by omega : (xs.drop 0).length < cap)]
      simp only [List.drop_zero]
      have : (xs ++ [x]).length - cap = 0 := by simp [List.length_append]; omega
      rw [this, List.drop_zero]
    · rw [enqueue_drop_oldest_spec cap _ x hcap (by omega)]
      rw [if_neg (by omega)]
      rw [List.drop_drop]
      have hsplit : (xs ++ [x]).length - cap = (xs.length - cap) + 1 := by
        simp [List.length_append]; omega
      rw [hsplit, List.drop_append_of_le_length (by omega)]

/-- C2: pushing `cap + 1` batches into an empty queue of capacity `cap` keeps
exactly the `cap` most recent batches in FIFO order (the first push is
evicted), and the length never exceeds `cap` at any intermediate point. -/
theorem queue_capacity_drop_oldest (cap : Nat) (bs : List α) (hcap : 0 < cap)
    (hlen : bs.length = cap + 1) :
    pushAll cap bs = bs.drop 1
    ∧ ∀ k : Nat, (pushAll cap (bs.take k)).length ≤ cap := by
  constructor
  · rw [pushAll_eq cap hcap, hlen]
    simp
  · intro k
    rw [pushAll_eq cap hcap]
    simp only [List.length_drop]
    omega

/-- Witness for C2 at a concrete push sequence. -/
theorem queue_capacity_drop_oldest_witness :
    (0 < 2 ∧ ([10, 20, 30] : List Nat).length = 2 + 1)
    ∧ pushAll 2 ([10, 20, 30] : List Nat) = [20, 30]
    ∧ (pushAll 2 (([10, 20, 30] : List Nat).take 2)).length ≤ 2 := by
  have h := queue_capacity_drop_oldest 2 ([10, 20, 30] : List Nat) (by decide) (by decide)
  exact ⟨⟨by decide, by decide⟩, h.1, h.2 2⟩

/-- C4: on retry-deadline exhaustion the batch is re-enqueued (not discarded)
under the same drop-oldest policy, and it is appended exactly once at the
tail of the queue. -/
theorem exhausted_batch_requeued_once (cap : Nat) (q : List α) (b : α)
    (hcap : 0 < cap) (hq : q.length ≤ cap) :
    sender_step cap q SendResult.exhausted b = enqueue_drop_oldest cap q b
    ∧ (∃ k, enqueue_drop_oldest cap q b = q.drop k ++ [b]
        ∧ (k = 0 ∨ (q.length = cap ∧ k = 1)))
    ∧ b ∈ sender_step cap q SendResult.exhausted b := by
  have hspec := enqueue_drop_oldest_spec cap q b hcap hq
  refine ⟨rfl, ?_, ?_⟩
  · by_cases hlt : q.length < cap
    · exact ⟨0, by rw [hspec, if_pos hlt]; simp, Or.inl rfl⟩
    · exact ⟨1, by rw [hspec, if_neg hlt], Or.inr ⟨by omega, rfl⟩⟩
  · show b ∈ enqueue_drop_oldest cap q b
    by_cases hlt : q.length < cap
    · rw [hspec, if_pos hlt]; simp
    · rw [hspec, if_neg hlt]; simp

/-- Witness for C4 at a concrete queue state. -/
theorem exhausted_batch_requeued_once_witness :
    (0 < 1 ∧ ([7] : List Nat).length ≤ 1)
    ∧ sender_step 1 ([7] : List Nat) SendResult.exhausted 9 = enqueue_drop_oldest 1 [7] 9
    ∧ 9 ∈ sender_step 1 ([7] : List Nat) SendResult.exhausted 9 := by
  have h := exhausted_batch_requeued_once 1 ([7] : List Nat) 9 (by decide) (by decide)
  exact ⟨⟨by decide, by decide⟩, h.1, h.2.2⟩

/-- C3: delivery succeeds exactly when some made attempt returned 2xx; any
4xx-other-than-429 attempt is the last attempt made and yields the `rejected`
result (whereupon `sender_loop` drops the batch without requeueing); all
non-final attempts are retryable failures; and exhaustion happens only after
retryable outcomes, when the observed clock passes the deadline. -/
theorem send_with_retry_classification (d : Nat) (tr : List Attempt) (r : SendResult) (n : Nat)
    (h : send_with_retry d tr = some (r, n)) :
    n ≤ tr.length
    ∧ (r = SendResult.success ↔ ∃ a ∈ tr.take n, classifyOutcome a.outcome = Classify.ok)
    ∧ (∀ a ∈ (tr.take n).dropLast, classifyOutcome a.outcome = Classify.transient)
    ∧ (r = SendResult.rejected ↔
        ∃ a, (tr.take n).getLast? = some a ∧ classifyOutcome a.outcome = Classify.reject)
    ∧ (r = SendResult.exhausted →
        (∀ a ∈ tr.take n, classifyOutcome a.outcome = Classify.transient)
        ∧ ((∃ a, tr[n]? = some a ∧ d ≤ a.now)
            ∨ (∃ a, (tr.take n).getLast? = some a ∧ d ≤ a.after)))
    ∧ (∀ (q : List (List Nat)) (b : List Nat) (cap : Nat),
        sender_step cap q SendResult.rejected b = q) := by
  revert r n h
  induction tr with
  | nil => intro r n h; simp [send_with_retry] at h
  | cons a rest ih =>
    intro r n h
    rw [show send_with_retry d (a :: rest) =
        (if d ≤ a.now then some (.exhausted, 0)
         else
           match classifyOutcome a.outcome with
           | .ok => some (.success, 1)
           | .reject => some (.rejected, 1)
           | .transient =>
             if d ≤ a.after then some (.exhausted, 1)
             else (send_with_retry d rest).map fun p => (p.1, p.2 + 1)) from rfl] at h
    by_cases hnow : d ≤ a.now
    · rw [if_pos hnow] at h
      simp only [Option.some.injEq, Prod.mk.injEq] at h
      obtain ⟨rfl, rfl⟩ := h
      refine ⟨by omega, by simp, by simp, by simp, fun _ => ⟨by simp, ?_⟩, fun _ _ _ => rfl⟩
      exact Or.inl ⟨a, by simp, hnow⟩
    · rw [if_neg hnow] at h
      cases hc : classifyOutcome a.outcome with
      | ok =>
        rw [hc] at h
        simp only [Option.some.injEq, Prod.mk.injEq] at h
        obtain ⟨rfl, rfl⟩ := h
        refine ⟨by simp, ?_, by simp, ?_, by simp, fun _ _ _ => rfl⟩
        · simp [List.take_succ_cons, hc]
        · simp [List.take_succ_cons, hc]
      | reject =>
        rw [hc] at h
        simp only [Option.some.injEq, Prod.mk.injEq] at h
        obtain ⟨rfl, rfl⟩ := h
        refine ⟨by simp, ?_, by simp, ?_, by simp, fun _ _ _ => rfl⟩
        · simp [List.take_succ_cons, hc]
        · simp [List.take_succ_cons, hc]
      | transient =>
        rw [hc] at h
        by_cases haft : d ≤ a.after
        · rw [if_pos haft] at h
          simp only [Option.some.injEq, Prod.mk.injEq] at h
          obtain ⟨rfl, rfl⟩ := h
          refine ⟨by simp, ?_, by simp, ?_, fun _ => ⟨?_, ?_⟩, fun _ _ _ => rfl⟩
          · simp [List.take_succ_cons, hc]
          · simp [List.take_succ_cons, hc]
          · simp [List.take_succ_cons, hc]
          · exact Or.inr ⟨a, by simp [List.take_succ_cons], haft⟩
        · rw [if_neg haft] at h
          cases hrec : send_with_retry d rest with
          | none => rw [hrec] at h; simp at h
          | some p =>
            obtain ⟨r', m⟩ := p
            rw [hrec] at h
            simp only [Option.map_some', Option.some.injEq, Prod.mk.injEq] at h
            obtain ⟨rfl, rfl⟩ := h
            obtain ⟨ih1, ih2, ih3, ih4, ih5, _⟩ := ih r' m hrec
            have htake : (a :: rest).take (m + 1) = a :: rest.take m := by
              simp [List.take_succ_cons]
            refine ⟨by simpa using by omega, ?_, ?_, ?_, ?_, fun _ _ _ => rfl⟩
            · rw [htake]
              constructor
              · intro hr
                obtain ⟨x, hx1, hx2⟩ := ih2.mp hr
                exact ⟨x, by simp [hx1], hx2⟩
              · rintro ⟨x, hx1, hx2⟩
                rcases List.mem_cons.mp hx1 with rfl | hx1
                · rw [hc] at hx2; cases hx2
                · exact ih2.mpr ⟨x, hx1, hx2⟩
            · rw [htake]
              cases htm : rest.take m with
              | nil => simp
              | cons y ys =>
                rw [List.dropLast_cons₂]
                intro x hx
                rcases List.mem_cons.mp hx with rfl | hx
                · exact hc
                · rw [← htm] at hx
                  exact ih3 x hx
            · rw [htake]
              cases htm : rest.take m with
              | nil =>
                simp only [List.getLast?_singleton]
                constructor
                · intro hr
                  obtain ⟨x, hx1, hx2⟩ := ih4.mp hr
                  rw [htm] at hx1
                  simp at hx1
                · rintro ⟨x, hx1, hx2⟩
                  simp only [Option.some.injEq] at hx1
                  rw [← hx1] at hx2
                  rw [hc] at hx2
                  cases hx2
              | cons y ys =>
                rw [List.getLast?_cons_cons]
                rw [← htm]
                exact ih4
            · intro hr
              obtain ⟨ihA, ihB⟩ := ih5 hr
              constructor
              · rw [htake]
                intro x hx
                rcases List.mem_cons.mp hx with rfl | hx
                · exact hc
                · exact ihA x hx
              · rcases ihB with ⟨x, hx1, hx2⟩ | ⟨x, hx1, hx2⟩
                · exact Or.inl ⟨x, by simpa using hx1, hx2⟩
                · refine Or.inr ⟨x, ?_, hx2⟩
                  rw [htake]
                  cases htm : rest.take m with
                  | nil => rw [htm] at hx1; simp at hx1
                  | cons y ys =>
                    rw [List.getLast?_cons_cons, ← htm]
                    exact hx1

/-- Witness for C3 on a concrete trace: one 500 then one 200 before the
deadline yields success after two attempts. -/
theorem send_with_retry_classification_witness :
    send_with_retry 100 [⟨0, Outcome.status 500, 1⟩, ⟨2, Outcome.status 200, 3⟩]
      = some (SendResult.success, 2)
    ∧ (SendResult.success = SendResult.success ↔
        ∃ a ∈ ([⟨0, Outcome.status 500, 1⟩, ⟨2, Outcome.status 200, 3⟩] : List Attempt).take 2,
          classifyOutcome a.outcome = Classify.ok) := by
  have h := send_with_retry_classification 100
    [⟨0, Outcome.status 500, 1⟩, ⟨2, Outcome.status 200, 3⟩] SendResult.success 2 (by decide)
  exact ⟨by decide, h.2.1⟩

/-! ### Assembler lemmas and claim theorems -/

theorem lf_truncate_id (maxB : Nat) (msg : String) (h : utf8Len msg.data ≤ maxB) :
    lf_truncate maxB msg = msg := by
  unfold lf_truncate
  rw [if_neg (by omega)]

theorem fw_truncate_id (maxB : Nat) (msg : String) (h : utf8Len msg.data ≤ maxB) :
    fw_truncate maxB msg = msg := by
  unfold fw_truncate
  rw [if_neg (by omega)]

theorem lf_run_conts (now : Nat) (parseIso : String → Option Nat) (server : String) (maxB : Nat) :
    ∀ (conts : List String) (p : LfPending) (out : List LfEvent),
      (∀ l ∈ conts, logStartMatch l.data = false) →
      lf_run now parseIso server maxB (some p, out) conts
        = (some ⟨p.ts, p.level, p.message ++ prejoinNL conts⟩, out) := by
  intro conts
  induction conts with
  | nil =>
    intro p out _
    simp [lf_run, prejoinNL, String.append_empty]
  | cons l ls ih =>
    intro p out h
    have hl : logStartMatch l.data = false := h l (List.mem_cons_self l ls)
    rw [show lf_run now parseIso server maxB (some p, out) (l :: ls)
        = lf_run now parseIso server maxB
            ((lf_step now parseIso server maxB (some p) l).1,
             out ++ (lf_step now parseIso server maxB (some p) l).2) ls from rfl]
    rw [show lf_step now parseIso server maxB (some p) l
        = (some ⟨p.ts, p.level, p.message ++ "\n" ++ l⟩, []) from by simp [lf_step, hl]]
    simp only [List.append_nil]
    rw [ih _ out (fun x hx => h x (List.mem_cons_of_mem _ hx))]
    simp [prejoinNL, String.append_assoc]

theorem fw_run_conts (now : Nat) (parseIso : String → Option Nat) (maxB : Nat) (server : String) :
    ∀ (conts : List String) (p : FwPending) (out : List FwEvent),
      (∀ l ∈ conts, is_continuation l = true) →
      fw_run now parseIso maxB server (some p, out) conts
        = (some ⟨p.serverName, p.ts, p.level, p.requestId, p.message ++ prejoinNL conts⟩, out) := by
  intro conts
  induction conts with
  | nil =>
    intro p out _
    simp [fw_run, prejoinNL, String.append_empty]
  | cons l ls ih =>
    intro p out h
    have hl : is_continuation l = true := h l (List.mem_cons_self l ls)
    rw [show fw_run now parseIso maxB server (some p, out) (l :: ls)
        = fw_run now parseIso maxB server
            ((fw_step now parseIso maxB server (some p) l).1,
             out ++ (fw_step now parseIso maxB server (some p) l).2) ls from rfl]
    rw [show fw_step now parseIso maxB server (some p) l
        = (some ⟨p.serverName, p.ts, p.level, p.requestId, p.message ++ "\n" ++ l⟩, []) from by
          simp [fw_step, hl]]
    simp only [List.append_nil]
    rw [ih _ out (fun x hx => h x (List.mem_cons_of_mem _ hx))]
    simp [prejoinNL, String.append_assoc]

/-- C1: in both assembler variants, a start line followed by any finite
sequence of continuation lines yields no intermediate event, leaves one
pending event whose message is the newline-join of all the lines in input
order with timestamp/level taken from the start line only, and finalizing it
(within the byte budget) produces exactly that one event. -/
theorem assembler_one_event_newline_join (now : Nat) (parseIso : String → Option Nat)
    (server : String) (maxB : Nat) (start : String) (conts : List String)
    (hstart : logStartMatch start.data = true)
    (hcont : ∀ l ∈ conts, logStartMatch l.data = false)
    (hbudget : utf8Len (joinNL (start :: conts)).data ≤ maxB) :
    (lf_run now parseIso server maxB (none, []) (start :: conts)
      = (some ⟨(lf_extract now parseIso start).1, (lf_extract now parseIso start).2,
          joinNL (start :: conts)⟩, [])
     ∧ lf_finalize maxB server
         (some ⟨(lf_extract now parseIso start).1, (lf_extract now parseIso start).2,
           joinNL (start :: conts)⟩)
       = some ⟨server, (lf_extract now parseIso start).1, (lf_extract now parseIso start).2,
           joinNL (start :: conts),
           make_event_id server (lf_extract now parseIso start).1 (joinNL (start :: conts))⟩)
    ∧ (∀ (fstart : String) (fconts : List String),
        is_continuation fstart = false →
        (∀ l ∈ fconts, is_continuation l = true) →
        utf8Len (joinNL (fstart :: fconts)).data ≤ maxB →
        fw_run now parseIso maxB server (none, []) (fstart :: fconts)
          = (some ⟨server, (parse_level_and_ts now parseIso fstart).1,
              (parse_level_and_ts now parseIso fstart).2.1,
              (parse_level_and_ts now parseIso fstart).2.2, joinNL (fstart :: fconts)⟩, [])
        ∧ fw_finalize maxB ⟨server, (parse_level_and_ts now parseIso fstart).1,
              (parse_level_and_ts now parseIso fstart).2.1,
              (parse_level_and_ts now parseIso fstart).2.2, joinNL (fstart :: fconts)⟩
          = ⟨server, (parse_level_and_ts now parseIso fstart).1,
              (parse_level_and_ts now parseIso fstart).2.1,
              (parse_level_and_ts now parseIso fstart).2.2, joinNL (fstart :: fconts),
              fw_make_event_id server (parse_level_and_ts now parseIso fstart).1
                (joinNL (fstart :: fconts)) (parse_level_and_ts now parseIso fstart).2.2⟩) := by
  refine ⟨⟨?_, ?_⟩, ?_⟩
  · rw [show lf_run now parseIso server maxB (none, []) (start :: conts)
        = lf_run now parseIso server maxB
            ((lf_step now parseIso server maxB none start).1,
             [] ++ (lf_step now parseIso server maxB none start).2) conts from rfl]
    rw [show lf_step now parseIso server maxB none start
        = (some ⟨(lf_extract now parseIso start).1, (lf_extract now parseIso start).2, start⟩, [])
        from by simp [lf_step, hstart, lf_finalize]]
    simp only [List.nil_append]
    rw [lf_run_conts now parseIso server maxB conts _ [] hcont]
    rfl
  · rw [show lf_finalize maxB server
        (some ⟨(lf_extract now parseIso start).1, (lf_extract now parseIso start).2,
          joinNL (start :: conts)⟩)
        = some ⟨server, (lf_extract now parseIso start).1, (lf_extract now parseIso start).2,
            lf_truncate maxB (joinNL (start :: conts)),
            make_event_id server (lf_extract now parseIso start).1
              (lf_truncate maxB (joinNL (start :: conts)))⟩ from rfl]
    rw [lf_truncate_id maxB _ hbudget]
  · intro fstart fconts hfs hfc hfb
    constructor
    · rw [show fw_run now parseIso maxB server (none, []) (fstart :: fconts)
          = fw_run now parseIso maxB server
              ((fw_step now parseIso maxB server none fstart).1,
               [] ++ (fw_step now parseIso maxB server none fstart).2) fconts from rfl]
      rw [show fw_step now parseIso maxB server none fstart
          = (some ⟨server, (parse_level_and_ts now parseIso fstart).1,
              (parse_level_and_ts now parseIso fstart).2.1,
              (parse_level_and_ts now parseIso fstart).2.2, fstart⟩, []) from rfl]
      simp only [List.nil_append]
      rw [fw_run_conts now parseIso maxB server fconts _ [] hfc]
      rfl
    · rw [show fw_finalize maxB ⟨server, (parse_level_and_ts now parseIso fstart).1,
            (parse_level_and_ts now parseIso fstart).2.1,
            (parse_level_and_ts now parseIso fstart).2.2, joinNL (fstart :: fconts)⟩
          = ⟨server, (parse_level_and_ts now parseIso fstart).1,
              (parse_level_and_ts now parseIso fstart).2.1,
              (parse_level_and_ts now parseIso fstart).2.2,
              fw_truncate maxB (joinNL (fstart :: fconts)),
              fw_make_event_id server (parse_level_and_ts now parseIso fstart).1
                (fw_truncate maxB (joinNL (fstart :: fconts)))
                (parse_level_and_ts now parseIso fstart).2.2⟩ from rfl]
      rw [fw_truncate_id maxB _ hfb]

/-- Witness for C1 on a concrete stack-trace-shaped input. -/
theorem assembler_one_event_newline_join_witness :
    (logStartMatch ("2026-01-03T21:46:06 ERROR boom" : String).data = true
     ∧ (∀ l ∈ (["java.lang.RuntimeException: demo", "\tat pkg.Cls.m(F.java:20)"] : List String),
          logStartMatch l.data = false)
     ∧ utf8Len (joinNL ("2026-01-03T21:46:06 ERROR boom"
          :: ["java.lang.RuntimeException: demo", "\tat pkg.Cls.m(F.java:20)"])).data ≤ 1000)
    ∧ lf_run 0 (fun _ => none) "srv" 1000 (none, [])
        ("2026-01-03T21:46:06 ERROR boom"
          :: ["java.lang.RuntimeException: demo", "\tat pkg.Cls.m(F.java:20)"])
      = (some ⟨(lf_extract 0 (fun _ => none) "2026-01-03T21:46:06 ERROR boom").1,
          (lf_extract 0 (fun _ => none) "2026-01-03T21:46:06 ERROR boom").2,
          joinNL ("2026-01-03T21:46:06 ERROR boom"
            :: ["java.lang.RuntimeException: demo", "\tat pkg.Cls.m(F.java:20)"])⟩, []) := by
  have h := assembler_one_event_newline_join 0 (fun _ => none) "srv" 1000
    "2026-01-03T21:46:06 ERROR boom"
    ["java.lang.RuntimeException: demo", "\tat pkg.Cls.m(F.java:20)"]
    (by decide) (by decide) (by decide)
  exact ⟨⟨by decide, by decide, by decide⟩, h.1.1⟩

/-- C10: in the `forwarder.py` assembler an empty line is never a
continuation; with a live pending event it finalizes and emits that event and
opens a new pending seeded with the empty line, current wall-clock timestamp,
INFO severity and no request id. -/
theorem fw_empty_line_finalizes_and_opens_info (now : Nat) (parseIso : String → Option Nat)
    (maxB : Nat) (server : String) (p : FwPending) :
    is_continuation "" = false
    ∧ parse_level_and_ts now parseIso "" = (now, "INFO", none)
    ∧ fw_step now parseIso maxB server (some p) ""
      = (some ⟨server, now, "INFO", none, ""⟩, [fw_finalize maxB p]) := by
  exact ⟨rfl, rfl, rfl⟩

/-- C9 (code bug): the tracked offset advances by the character count of the
line, not its byte length: for the two-character line "한\n" (four UTF-8
bytes) the offset advances by 2. -/
theorem offset_advances_by_chars_not_bytes :
    tailer_advance 0 "한\n" = 2
    ∧ utf8Len ("한\n" : String).data = 4
    ∧ tailer_advance 0 "한\n" ≠ utf8Len ("한\n" : String).data := by
  decide

/-- C6 (code bug): `finalize_pending` checks the byte length but slices
characters, so a multibyte message keeps all its bytes: with budget 4 the
message "한한" (6 bytes) is "truncated" to itself plus the marker, 21 bytes,
exceeding budget + marker length (4 + 15 = 19). -/
theorem finalize_truncation_exceeds_byte_budget :
    utf8Len ("한한" : String).data = 6
    ∧ lf_truncate 4 "한한" = "한한" ++ "\n...(truncated)"
    ∧ utf8Len ("\n...(truncated)" : String).data = 15
    ∧ utf8Len (lf_truncate 4 "한한").data = 21
    ∧ ¬(utf8Len (lf_truncate 4 "한한").data ≤ 4 + 15)
    ∧ (lf_finalize 4 "srv" (some ⟨0, "ERROR", "한한"⟩)).map (fun e => utf8Len e.message.data)
      = some 21 := by
  decide

/-- C5 (code bug): on truncation the pending event IS finalized into the
batch before new lines are read, but with START_AT_END (the default) the
reopen seeks to the END of the new file: the offset becomes 5, not the
file's start position 0, so content already in the new file is skipped. -/
theorem truncation_reopen_skips_new_content :
    c5tick.offset = 5
    ∧ c5tick.offset ≠ 0
    ∧ c5tick.pending = none
    ∧ c5tick.batch.map (fun e => e.message) = ["m"]
    ∧ open_offset false 5 = 0 := by
  decide

/-! ### Redactor lemmas and C8 theorems -/

theorem charOfNat_toNat (n : Nat) (h : n < 55296) : (Char.ofNat n).toNat = n := by
  simp [Char.ofNat, Char.toNat]
  rw [dif_pos (by exact Or.inl h : n < 55296 ∨ (57343 < n ∧ n < 1114112))]
  simp [Char.ofNatAux, UInt32.toNat, BitVec.toNat_ofNatLt]

theorem toLower_eq_colon (c : Char) (h : c.toLower = ':') : c = ':' := by
  have heq : c.toLower = if c.toNat ≥ 65 ∧ c.toNat ≤ 90 then Char.ofNat (c.toNat + 32) else c :=
    rfl
  rw [heq] at h
  by_cases hc : c.toNat ≥ 65 ∧ c.toNat ≤ 90
  · exfalso
    rw [if_pos hc] at h
    have h2 := congrArg Char.toNat h
    rw [charOfNat_toNat (c.toNat + 32) (by omega)] at h2
    have h58 : (':' : Char).toNat = 58 := by decide
    rw [h58] at h2
    omega
  · rw [if_neg hc] at h
    exact h

theorem token_not_space (c : Char) (h : isTokenCh c = true) : isSpaceCh c = false := by
  by_contra hs
  rw [Bool.not_eq_false] at hs
  unfold isSpaceCh at hs
  simp only [Bool.or_eq_true, decide_eq_true_eq] at hs
  rcases hs with ((((rfl | rfl) | rfl) | rfl) | rfl) | rfl <;> exact absurd h (by decide)

theorem matchCI_spec : ∀ (lit s pre r : List Char), matchCI lit s = some (pre, r) →
    s = pre ++ r ∧ pre.map Char.toLower = lit := by
  intro lit
  induction lit with
  | nil =>
    intro s pre r h
    rw [show matchCI [] s = some ([], s) from rfl] at h
    simp only [Option.some.injEq, Prod.mk.injEq] at h
    obtain ⟨rfl, rfl⟩ := h
    simp
  | cons p ps ih =>
    intro s pre r h
    cases s with
    | nil => exact absurd h (by rw [show matchCI (p :: ps) [] = none from rfl]; simp)
    | cons c cs =>
      rw [show matchCI (p :: ps) (c :: cs) =
          (if c.toLower = p then
            match matchCI ps cs with
            | some (q, r) => some (c :: q, r)
            | none => none
          else none) from rfl] at h
      by_cases hc : c.toLower = p
      · rw [if_pos hc] at h
        cases hm : matchCI ps cs with
        | none => rw [hm] at h; exact absurd h (by simp)
        | some q =>
          obtain ⟨pre', r'⟩ := q
          rw [hm] at h
          simp only [Option.some.injEq, Prod.mk.injEq] at h
          obtain ⟨hpre, hr⟩ := h
          obtain ⟨ih1, ih2⟩ := ih cs pre' r' hm
          subst hpre
          subst hr
          constructor
          · rw [List.cons_append, ← ih1]
          · rw [List.map_cons, ih2, hc]
      · rw [if_neg hc] at h
        exact absurd h (by simp)

theorem subScanF_nil (f : Bool → List Char → Option (List Char × Char × List Char))
    (fuel : Nat) (pw : Bool) : subScanF f fuel pw [] = [] := by
  cases fuel <;> rfl

theorem subScanF_match (f : Bool → List Char → Option (List Char × Char × List Char))
    (fuel : Nat) (pw : Bool) (c : Char) (cs rep : List Char) (lastc : Char) (rest : List Char)
    (h : f pw (c :: cs) = some (rep, lastc, rest)) :
    subScanF f (fuel + 1) pw (c :: cs) = rep ++ subScanF f fuel (isWordCh lastc) rest := by
  rw [show subScanF f (fuel + 1) pw (c :: cs) =
      (match f pw (c :: cs) with
       | some (rep, lastc, rest) => rep ++ subScanF f fuel (isWordCh lastc) rest
       | none => c :: subScanF f fuel (isWordCh c) cs) from rfl, h]

theorem subScanF_nomatch (f : Bool → List Char → Option (List Char × Char × List Char))
    (fuel : Nat) (pw : Bool) (c : Char) (cs : List Char)
    (h : f pw (c :: cs) = none) :
    subScanF f (fuel + 1) pw (c :: cs) = c :: subScanF f fuel (isWordCh c) cs := by
  rw [show subScanF f (fuel + 1) pw (c :: cs) =
      (match f pw (c :: cs) with
       | some (rep, lastc, rest) => rep ++ subScanF f fuel (isWordCh lastc) rest
       | none => c :: subScanF f fuel (isWordCh c) cs) from rfl, h]

theorem subScanF_id (f : Bool → List Char → Option (List Char × Char × List Char)) :
    ∀ (s : List Char) (fuel : Nat) (pw : Bool),
      (∀ (pw' : Bool) (t : List Char), (∃ u, u ++ t = s) → f pw' t = none) →
      subScanF f fuel pw s = s := by
  intro s
  induction s with
  | nil => intro fuel pw _; exact subScanF_nil f fuel pw
  | cons c cs ih =>
    intro fuel pw h
    cases fuel with
    | zero => rfl
    | succ fuel =>
      rw [subScanF_nomatch f fuel pw c cs (h pw (c :: cs) ⟨[], rfl⟩)]
      congr 1
      refine ih fuel (isWordCh c) (fun pw' t ht => h pw' t ?_)
      obtain ⟨u, hu⟩ := ht
      exact ⟨c :: u, by rw [List.cons_append, hu]⟩

theorem rule1Try_none (pw : Bool) (t : List Char) (h : ∀ c ∈ t, c ≠ ':') :
    rule1Try pw t = none := by
  cases hm : matchCI "authorization:".data t with
  | none => simp [rule1Try, hm]
  | some q =>
    exfalso
    obtain ⟨pre, r⟩ := q
    obtain ⟨ht, hmap⟩ := matchCI_spec _ _ _ _ hm
    have hcolon : ':' ∈ pre.map Char.toLower := by rw [hmap]; decide
    obtain ⟨c, hc1, hc2⟩ := List.mem_map.mp hcolon
    have hceq : c = ':' := toLower_eq_colon c hc2
    exact h c (ht ▸ List.mem_append_left r hc1) hceq

theorem rule2Try_bearer_match (tok : List Char) (hne : tok ≠ [])
    (htok : ∀ c ∈ tok, isTokenCh c = true) :
    rule2Try false ("Bearer ".data ++ tok)
      = some ("Bearer [REDACTED]".data, tok.getLastD 'x', []) := by
  obtain ⟨c, ct, rfl⟩ : ∃ c ct, tok = c :: ct := by
    cases tok with
    | nil => exact absurd rfl hne
    | cons c ct => exact ⟨c, ct, rfl⟩
  have hcspace : isSpaceCh c = false := token_not_space c (htok c (List.mem_cons_self c ct))
  have hm : matchCI "bearer".data ("Bearer ".data ++ c :: ct)
      = some (['B', 'e', 'a', 'r', 'e', 'r'], ' ' :: c :: ct) := rfl
  unfold rule2Try
  rw [hm]
  have hws : (' ' :: c :: ct).takeWhile isSpaceCh = [' '] := by
    rw [show (' ' :: c :: ct).takeWhile isSpaceCh
        = if isSpaceCh ' ' then ' ' :: (c :: ct).takeWhile isSpaceCh else [] from by
          simp [List.takeWhile_cons]]
    rw [if_pos (by decide)]
    rw [show (c :: ct).takeWhile isSpaceCh
        = if isSpaceCh c then c :: ct.takeWhile isSpaceCh else [] from by
          simp [List.takeWhile_cons]]
    rw [hcspace]
    simp
  have hdws : (' ' :: c :: ct).dropWhile isSpaceCh = c :: ct := by
    rw [List.dropWhile_cons, if_pos (by decide), List.dropWhile_cons, hcspace]
    simp
  have htw : (c :: ct).takeWhile isTokenCh = c :: ct := List.takeWhile_eq_self_iff.mpr htok
  have hdw : (c :: ct).dropWhile isTokenCh = [] := List.dropWhile_eq_nil_iff.mpr htok
  simp only [hws, hdws, htw, hdw]
  rw [if_neg (by decide), if_neg (by simp)]
  rfl

/-- C8 counterexample: the rule set is not idempotent — the JSON-style rule
appends one more trailing quote on every reapplication. -/
theorem redact_not_idempotent :
    redact "token: x" = "token: \"[REDACTED]\""
    ∧ redact (redact "token: x") = "token: \"[REDACTED]\"\""
    ∧ redact (redact "token: x") ≠ redact "token: x" := by
  refine ⟨by decide, by decide, by decide⟩

/-- C8 amended: the full rule set is not idempotent in general (see the
counterexample), but it is idempotent on strings it leaves unchanged, and a
bearer credential is masked: for every nonempty token over the bearer token
alphabet, the token value after `Bearer ` is replaced by `[REDACTED]`. -/
theorem redact_masks_bearer_token (tok : List Char) (hne : tok ≠ [])
    (htok : ∀ c ∈ tok, isTokenCh c = true) :
    redact (String.mk ("Bearer ".data ++ tok)) = "Bearer [REDACTED]"
    ∧ (∀ s : String, redact s = s → redact (redact s) = redact s) := by
  constructor
  · unfold redact
    have hdata : (String.mk ("Bearer ".data ++ tok)).data = "Bearer ".data ++ tok := rfl
    rw [hdata]
    have hnocolon : ∀ c ∈ "Bearer ".data ++ tok, c ≠ ':' := by
      intro c hc
      rcases List.mem_append.mp hc with h1 | h2
      · exact (by decide : ∀ c ∈ "Bearer ".data, c ≠ ':') c h1
      · intro heq
        rw [heq] at h2
        exact absurd (htok ':' h2) (by decide)
    have h1 : runSub rule1Try ("Bearer ".data ++ tok) = "Bearer ".data ++ tok := by
      unfold runSub
      apply subScanF_id
      intro pw' t ht
      apply rule1Try_none
      intro c hc
      obtain ⟨u, hu⟩ := ht
      exact hnocolon c (by rw [← hu]; exact List.mem_append_right u hc)
    rw [h1]
    have h2 : runSub rule2Try ("Bearer ".data ++ tok) = "Bearer [REDACTED]".data := by
      unfold runSub
      rw [show "Bearer ".data ++ tok = 'B' :: ("earer ".data ++ tok) from rfl]
      rw [subScanF_match rule2Try (('B' :: ("earer ".data ++ tok)).length) false 'B'
        ("earer ".data ++ tok) "Bearer [REDACTED]".data (tok.getLastD 'x') []
        (rule2Try_bearer_match tok hne htok)]
      rw [subScanF_nil]
      simp
    rw [h2]
    rw [show runSub rule3Try "Bearer [REDACTED]".data = "Bearer [REDACTED]".data from by decide]
    rw [show runSub rule4Try "Bearer [REDACTED]".data = "Bearer [REDACTED]".data from by decide]
  · intro s hs
    rw [hs]
    exact hs

/-- Witness for the C8 amended theorem at a concrete token. -/
theorem redact_masks_bearer_token_witness :
    (("abc123" : String).data ≠ [] ∧ ∀ c ∈ ("abc123" : String).data, isTokenCh c = true)
    ∧ redact (String.mk ("Bearer ".data ++ ("abc123" : String).data)) = "Bearer [REDACTED]" := by
  have h := redact_masks_bearer_token ("abc123" : String).data (by decide) (by decide)
  exact ⟨⟨by decide, by decide⟩, h.1⟩
